import Mathlib

set_option maxHeartbeats 1000000

/-
  Verification development for the bendy bencode encoder core.

  The repository provides `src/encoding.rs`, the module documentation and
  re-exports of the encoder; the implementing modules (`encoder.rs`,
  `encodable.rs`, `printable_integer.rs`) are not among the sources, so the
  engine itself is modelled from the specification (spec.md sections 3, 4, 6
  and 7) as marked on each definition.
-/

namespace Bendy

/-- ASCII digit test for a byte. -/
def isDigit (c : Nat) : Bool := 48 ≤ c && c ≤ 57

/-- Fuel-driven loop producing the decimal digits of a natural number as ASCII
bytes, most significant digit first. -/
def natDecimalGo : Nat → Nat → List Nat
  | 0, _ => []
  | fuel + 1, n => if n < 10 then [48 + n] else natDecimalGo fuel (n / 10) ++ [48 + n % 10]

/-- Decimal ASCII digits of a natural number, most significant digit first. -/
def natDecimal (n : Nat) : List Nat := natDecimalGo (n + 1) n

/-- Canonical decimal ASCII form of an integer: a leading minus sign (byte 45)
exactly for negative values, then the digits of the absolute value. -/
def intDecimal (n : Int) : List Nat :=
  if n < 0 then 45 :: natDecimal n.natAbs else natDecimal n.natAbs

/-- Modelled from the spec: wire format of the integer atom, `i` (byte 105) +
canonical decimal form + `e` (byte 101) (spec section 6; `encoder.rs` is
absent from the sources). -/
def intToken (n : Int) : List Nat := 105 :: (intDecimal n ++ [101])

/-- Modelled from the spec: wire format of the byte-string atom, decimal
length + `:` (byte 58) + the raw bytes verbatim, no escaping (spec section 6). -/
def bytesToken (b : List Nat) : List Nat := natDecimal b.length ++ 58 :: b

/-- Raw byte lexicographic order on byte strings, as Rust orders byte slices:
a proper prefix is smaller, otherwise the first differing byte decides. -/
def lexLt : List Nat → List Nat → Bool
  | [], [] => false
  | [], _ :: _ => true
  | _ :: _, [] => false
  | a :: xs, b :: ys => if a < b then true else if b < a then false else lexLt xs ys

/-- Modelled from the spec: the error kinds of spec section 7.  `passthrough`
stands for an error returned by a user-supplied `Encodable::encode`
implementation (an adapter-level error, opaque to the core). -/
inductive EncError where
  | nestingTooDeep
  | unsortedKeys
  | nothingEmitted
  | emitAfterTop
  | passthrough
deriving DecidableEq, Repr

/-- Modelled from the spec: the Encoder Engine state of spec section 3.  It
owns the Output Sink (append-only byte buffer), the remaining Depth Budget,
the sticky error latch, and the count of completed top-level emissions used
by `get_output`. -/
structure Encoder where
  output : List Nat
  remDepth : Nat
  err : Option EncError
  items : Nat
deriving DecidableEq, Repr

/-- Modelled from the spec: `Encoder::new()` builds an engine with an empty
buffer, no stored error, nothing emitted, and a conservative built-in default
depth budget. -/
def Encoder.new : Encoder := ⟨[], 2048, none, 0⟩

/-- Modelled from the spec: `with_max_depth(n)` configures the nesting budget. -/
def Encoder.with_max_depth (e : Encoder) (d : Nat) : Encoder := { e with remDepth := d }

/-- Modelled from the spec: `emit_int(n)` checks the sticky error first, then
appends the integer token to the Output Sink. -/
def Encoder.emit_int (e : Encoder) (n : Int) : Option EncError × Encoder :=
  match e.err with
  | some er => (some er, e)
  | none => (none, { e with output := e.output ++ intToken n })

/-- Modelled from the spec: `emit_bytes(b)` checks the sticky error first, then
appends the byte-string token to the Output Sink. -/
def Encoder.emit_bytes (e : Encoder) (b : List Nat) : Option EncError × Encoder :=
  match e.err with
  | some er => (some er, e)
  | none => (none, { e with output := e.output ++ bytesToken b })

/-- Modelled from the spec: the shared container discipline of `emit_list` and
`emit_dict` (spec section 4.1): check the sticky error, decrement the Depth
Budget (storing `NestingTooDeep` if it is already zero), emit the open token,
run the callback, and on success emit the close token (byte 101) and restore
the budget; a callback error is stored (first error wins) and propagated
without emitting the close token. -/
def Encoder.openContainer (e : Encoder) (tok : Nat)
    (cb : Encoder → Option EncError × Encoder) : Option EncError × Encoder :=
  match e.err with
  | some er => (some er, e)
  | none =>
    if e.remDepth = 0 then
      (some .nestingTooDeep, { e with err := some .nestingTooDeep })
    else
      match cb { e with remDepth := e.remDepth - 1, output := e.output ++ [tok] } with
      | (some er, e2) => (some er, { e2 with err := some (e2.err.getD er) })
      | (none, e2) => (none, { e2 with output := e2.output ++ [101], remDepth := e2.remDepth + 1 })

/-- Modelled from the spec: `emit_list(callback)`, open token `l` (byte 108). -/
def Encoder.emit_list (e : Encoder) (cb : Encoder → Option EncError × Encoder) :
    Option EncError × Encoder :=
  e.openContainer 108 cb

/-- Modelled from the spec: the sorted dictionary builder of spec section 4.3:
the engine plus the most recently emitted key of the current dict frame. -/
structure SortedDictEncoder where
  enc : Encoder
  lastKey : Option (List Nat)
deriving DecidableEq, Repr

/-- Key admissibility in a sorted dict frame: the first key is always allowed,
a later key must be strictly greater than the previous one in raw byte
lexicographic order. -/
def keyOk : Option (List Nat) → List Nat → Bool
  | none, _ => true
  | some prev, k => lexLt prev k

/-- Modelled from the spec: `SortedDictEncoder::emit_pair(key, value)` checks
the sticky error, validates that `key` is strictly greater than the previous
key of the frame (storing `UnsortedKeys` otherwise, leaving the buffer
untouched), then writes the key as a byte-string atom and lets the value
encode itself through the engine. -/
def SortedDictEncoder.emit_pair (d : SortedDictEncoder) (key : List Nat)
    (valueCb : Encoder → Option EncError × Encoder) : Option EncError × SortedDictEncoder :=
  match d.enc.err with
  | some er => (some er, d)
  | none =>
    if keyOk d.lastKey key then
      match valueCb { d.enc with output := d.enc.output ++ bytesToken key } with
      | (some er, e2) => (some er, ⟨{ e2 with err := some (e2.err.getD er) }, some key⟩)
      | (none, e2) => (none, ⟨e2, some key⟩)
    else
      (some .unsortedKeys, ⟨{ d.enc with err := some .unsortedKeys }, d.lastKey⟩)

/-- Modelled from the spec: `emit_dict(callback)`, open token `d` (byte 100);
the callback receives a fresh sorted-dict frame over the engine. -/
def Encoder.emit_dict (e : Encoder)
    (cb : SortedDictEncoder → Option EncError × SortedDictEncoder) :
    Option EncError × Encoder :=
  e.openContainer 100 (fun e1 =>
    match cb ⟨e1, none⟩ with
    | (r, d) => (r, d.enc))

/-- Modelled from the spec: `emit(value)`, the top-level entry point; it runs
the value's encode callback through the engine and counts one completed
top-level emission on success (spec section 4.1). -/
def Encoder.emit (e : Encoder) (cb : Encoder → Option EncError × Encoder) :
    Option EncError × Encoder :=
  match e.err with
  | some er => (some er, e)
  | none =>
    match cb e with
    | (some er, e1) => (some er, { e1 with err := some (e1.err.getD er) })
    | (none, e1) => (none, { e1 with items := e1.items + 1 })

/-- Modelled from the spec: `get_output()` consumes the engine and returns the
finished bytes, or the stored error, or the `"nothing emitted"` /
`"multiple items emitted"` error condition when the number of completed
top-level emissions differs from one (spec sections 4.1 and 7). -/
def Encoder.get_output (e : Encoder) : Except EncError (List Nat) :=
  match e.err with
  | some er => .error er
  | none =>
    if e.items = 0 then .error .nothingEmitted
    else if e.items = 1 then .ok e.output
    else .error .emitAfterTop

/-- Bencode value trees: the typed values the Encodable contract serializes
(integer and byte-string atoms, lists, dictionaries with byte-string keys). -/
inductive Value where
  | int (n : Int)
  | bytes (b : List Nat)
  | list (items : List Value)
  | dict (pairs : List (List Nat × Value))
deriving Repr

mutual

/-- Wire bytes of a value (spec section 6). -/
def reprV : Value → List Nat
  | .int n => intToken n
  | .bytes b => bytesToken b
  | .list items => 108 :: (reprItems items ++ [101])
  | .dict ps => 100 :: (reprPairs ps ++ [101])

/-- Wire bytes of the members of a list, concatenated. -/
def reprItems : List Value → List Nat
  | [] => []
  | v :: t => reprV v ++ reprItems t

/-- Wire bytes of the pairs of a dict: key byte-string atom, encoded value. -/
def reprPairs : List (List Nat × Value) → List Nat
  | [] => []
  | (k, v) :: t => bytesToken k ++ reprV v ++ reprPairs t

end

/-- Strictly ascending keys, continuing from an optional previous key. -/
def keysAscendFrom : Option (List Nat) → List (List Nat × Value) → Bool
  | _, [] => true
  | lk, (k, _) :: t => keyOk lk k && keysAscendFrom (some k) t

mutual

/-- A value whose Encodable implementation is correct produces valid bencode;
structurally, every dict's keys are strictly ascending in raw byte
lexicographic order, recursively. -/
def validV : Value → Bool
  | .int _ => true
  | .bytes _ => true
  | .list items => validItems items
  | .dict ps => keysAscendFrom none ps && validPairs ps

/-- Validity of every member of a list. -/
def validItems : List Value → Bool
  | [] => true
  | v :: t => validV v && validItems t

/-- Validity of every value of a pair list. -/
def validPairs : List (List Nat × Value) → Bool
  | [] => true
  | (_, v) :: t => validV v && validPairs t

end

mutual

/-- Structural depth of a value: atoms have depth 0, a container has depth one
more than its deepest member (spec glossary). -/
def depthV : Value → Nat
  | .int _ => 0
  | .bytes _ => 0
  | .list items => depthItems items + 1
  | .dict ps => depthPairs ps + 1

/-- Depth of the deepest member of a list. -/
def depthItems : List Value → Nat
  | [] => 0
  | v :: t => max (depthV v) (depthItems t)

/-- Depth of the deepest value of a pair list. -/
def depthPairs : List (List Nat × Value) → Nat
  | [] => 0
  | (_, v) :: t => max (depthV v) (depthPairs t)

end

mutual

/-- Modelled from the spec: the canonical Encodable implementation of a value
tree, driving the engine primitives of spec section 4.1. -/
def encodeV (v : Value) (e : Encoder) : Option EncError × Encoder :=
  match v with
  | .int n => e.emit_int n
  | .bytes b => e.emit_bytes b
  | .list items => e.emit_list (fun e1 => encItems items e1)
  | .dict ps => e.emit_dict (fun d => encPairs ps d)

/-- Encode each member of a list in turn, stopping at the first error. -/
def encItems (items : List Value) (e : Encoder) : Option EncError × Encoder :=
  match items with
  | [] => (none, e)
  | v :: t =>
    match encodeV v e with
    | (some er, e1) => (some er, e1)
    | (none, e1) => encItems t e1

/-- Encode each pair of a dict through the sorted builder, stopping at the
first error. -/
def encPairs (ps : List (List Nat × Value)) (d : SortedDictEncoder) :
    Option EncError × SortedDictEncoder :=
  match ps with
  | [] => (none, d)
  | (k, v) :: t =>
    match d.emit_pair k (fun e1 => encodeV v e1) with
    | (some er, d1) => (some er, d1)
    | (none, d1) => encPairs t d1

end

/-- Modelled from the spec: the convenience entry point converting a value
into a finished byte buffer (spec section 6): run the value through a fresh
engine configured with depth budget `d` and extract the output. -/
def to_bytes (v : Value) (d : Nat) : Except EncError (List Nat) :=
  ((Encoder.new.with_max_depth d).emit (fun e => encodeV v e)).2.get_output

/-- Modelled from the spec: the buffering (unsorted) dictionary builder of
spec section 4.3; it collects key / pre-rendered-value pairs as they arrive. -/
structure UnsortedDictEncoder where
  pairs : List (List Nat × List Nat)
deriving DecidableEq, Repr

/-- Modelled from the spec: the buffering builder's `emit_pair` appends the
pair, the value bytes having been pre-rendered through a nested encoder pass. -/
def UnsortedDictEncoder.emit_pair (u : UnsortedDictEncoder) (key valBytes : List Nat) :
    UnsortedDictEncoder :=
  ⟨u.pairs ++ [(key, valBytes)]⟩

/-- Non-strict key order used to sort the buffered pairs at close time. -/
def keyLe (p q : List Nat × List Nat) : Prop := lexLt q.1 p.1 = false

instance : DecidableRel keyLe := fun p q => inferInstanceAs (Decidable (lexLt q.1 p.1 = false))

/-- Stable sort of buffered pairs by key in raw byte lexicographic order. -/
def sortPairs (ps : List (List Nat × List Nat)) : List (List Nat × List Nat) :=
  List.insertionSort keyLe ps

/-- Adjacent duplicate keys in a key-sorted pair list. -/
def hasDupKeys : List (List Nat × List Nat) → Bool
  | [] => false
  | [_] => false
  | p :: q :: t => if p.1 = q.1 then true else hasDupKeys (q :: t)

/-- Concatenated wire bytes of a pair list whose values are already rendered. -/
def flattenPairs : List (List Nat × List Nat) → List Nat
  | [] => []
  | p :: t => bytesToken p.1 ++ p.2 ++ flattenPairs t

/-- Modelled from the spec: `emit_and_sort_dict(callback)` (spec section 4.3):
sticky error and depth budget as for any container; the callback fills the
buffering builder; at close time the pairs are sorted by key, keys comparing
equal after sort fail with the `UnsortedKeys`-class duplicate error, and
otherwise the whole dict is written through the engine. -/
def Encoder.emit_and_sort_dict (e : Encoder)
    (cb : UnsortedDictEncoder → Option EncError × UnsortedDictEncoder) :
    Option EncError × Encoder :=
  match e.err with
  | some er => (some er, e)
  | none =>
    if e.remDepth = 0 then
      (some .nestingTooDeep, { e with err := some .nestingTooDeep })
    else
      match cb ⟨[]⟩ with
      | (some er, _) => (some er, { e with err := some er })
      | (none, u) =>
        if hasDupKeys (sortPairs u.pairs) then
          (some .unsortedKeys, { e with err := some .unsortedKeys })
        else
          (none, { e with output := e.output ++ 100 :: (flattenPairs (sortPairs u.pairs) ++ [101]) })

/-- Encoding operations on an engine: the operation trees a caller can run
through the engine primitives, each dict value and list member being one
nested operation; `opSortDict` supplies pre-rendered pairs to the buffering
builder. -/
inductive EncOp where
  | opInt (n : Int)
  | opBytes (b : List Nat)
  | opList (ops : List EncOp)
  | opDict (pairs : List (List Nat × EncOp))
  | opSortDict (pairs : List (List Nat × List Nat))
deriving Repr

mutual

/-- Interpretation of one encoding operation through the engine primitives. -/
def runOp : EncOp → Encoder → Option EncError × Encoder
  | .opInt n, e => e.emit_int n
  | .opBytes b, e => e.emit_bytes b
  | .opList ops, e => e.emit_list (fun e1 => runItems ops e1)
  | .opDict ps, e => e.emit_dict (fun d => runPairs ps d)
  | .opSortDict ps, e => e.emit_and_sort_dict (fun u => (none, ⟨u.pairs ++ ps⟩))

/-- Run the member operations of a list, stopping at the first error. -/
def runItems : List EncOp → Encoder → Option EncError × Encoder
  | [], e => (none, e)
  | op :: t, e =>
    match runOp op e with
    | (some er, e1) => (some er, e1)
    | (none, e1) => runItems t e1

/-- Run the pair operations of a dict through the sorted builder. -/
def runPairs : List (List Nat × EncOp) → SortedDictEncoder → Option EncError × SortedDictEncoder
  | [], d => (none, d)
  | (k, op) :: t, d =>
    match d.emit_pair k (fun e1 => runOp op e1) with
    | (some er, d1) => (some er, d1)
    | (none, d1) => runPairs t d1

end

/-- Run a sequence of operations, keeping the final engine state. -/
def runSeq : List EncOp → Encoder → Encoder
  | [], e => e
  | op :: t, e => runSeq t (runOp op e).2

/-- Longest digit run at the front of the input, with the rest. -/
def readDigits : List Nat → List Nat × List Nat
  | [] => ([], [])
  | c :: t =>
    if isDigit c then
      match readDigits t with
      | (ds, rest) => (c :: ds, rest)
    else ([], c :: t)

/-- Numeric value of a run of ASCII digits, most significant first. -/
def digitsVal (ds : List Nat) : Nat := ds.foldl (fun a d => a * 10 + (d - 48)) 0

/-- Canonical decimal digit run: nonempty, no leading zero unless the run is
the single digit `0`. -/
def canonNat : List Nat → Bool
  | [] => false
  | [_] => true
  | d :: _ :: _ => d != 48

/-- Modelled from the spec: the standard strict bencode parse of an integer
atom after the leading `i`: an optional minus (never on zero), canonical
digits, then `e` (decoding is not part of the encoder sources; the wire
format of spec section 6 defines it). -/
def decodeInt (input : List Nat) : Option (Value × List Nat) :=
  match input with
  | [] => none
  | c :: rest =>
    if c = 45 then
      match readDigits rest with
      | (ds, rest1) =>
        if canonNat ds && digitsVal ds != 0 then
          match rest1 with
          | 101 :: rest2 => some (.int (-(digitsVal ds : Int)), rest2)
          | _ => none
        else none
    else
      match readDigits (c :: rest) with
      | (ds, rest1) =>
        if canonNat ds then
          match rest1 with
          | 101 :: rest2 => some (.int (digitsVal ds), rest2)
          | _ => none
        else none

/-- Modelled from the spec: the standard strict bencode parse of a byte-string
atom: canonical decimal length, `:`, then that many raw bytes. -/
def decodeBytesRaw (input : List Nat) : Option (List Nat × List Nat) :=
  match readDigits input with
  | (ds, rest) =>
    if canonNat ds then
      match rest with
      | 58 :: rest2 =>
        if digitsVal ds ≤ rest2.length then
          some (rest2.take (digitsVal ds), rest2.drop (digitsVal ds))
        else none
      | _ => none
    else none

mutual

/-- Modelled from the spec: the standard strict bencode parse of one value,
with fuel bounding the nesting recursion. -/
def decodeD : Nat → List Nat → Option (Value × List Nat)
  | 0, _ => none
  | fuel + 1, input =>
    match input with
    | [] => none
    | c :: rest =>
      if c = 105 then decodeInt rest
      else if c = 108 then
        match decodeItemsD fuel rest with
        | some (items, rest1) => some (.list items, rest1)
        | none => none
      else if c = 100 then
        match decodePairsD fuel none rest with
        | some (ps, rest1) => some (.dict ps, rest1)
        | none => none
      else if isDigit c then
        match decodeBytesRaw (c :: rest) with
        | some (b, rest1) => some (.bytes b, rest1)
        | none => none
      else none

/-- Parse list members up to the closing `e`. -/
def decodeItemsD : Nat → List Nat → Option (List Value × List Nat)
  | 0, _ => none
  | fuel + 1, input =>
    match input with
    | [] => none
    | c :: rest =>
      if c = 101 then some ([], rest)
      else
        match decodeD fuel (c :: rest) with
        | some (v, rest1) =>
          match decodeItemsD fuel rest1 with
          | some (vs, rest2) => some (v :: vs, rest2)
          | none => none
        | none => none

/-- Parse dict pairs up to the closing `e`, enforcing strictly ascending keys. -/
def decodePairsD : Nat → Option (List Nat) → List Nat →
    Option (List (List Nat × Value) × List Nat)
  | 0, _, _ => none
  | fuel + 1, lk, input =>
    match input with
    | [] => none
    | c :: rest =>
      if c = 101 then some ([], rest)
      else
        match decodeBytesRaw (c :: rest) with
        | some (k, rest1) =>
          if keyOk lk k then
            match decodeD fuel rest1 with
            | some (v, rest2) =>
              match decodePairsD fuel (some k) rest2 with
              | some (ps, rest3) => some ((k, v) :: ps, rest3)
              | none => none
            | none => none
          else none
        | none => none

end

/-- Modelled from the spec: the standard bencode decode of a whole message:
parse exactly one value, consuming the entire input. -/
def decode (input : List Nat) : Option Value :=
  match decodeD (input.length + 1) input with
  | some (v, []) => some v
  | _ => none

/-- Supply a batch of pre-rendered pairs to the buffering builder, in order,
through its `emit_pair`. -/
def supplyPairs (ps : List (List Nat × List Nat)) (u : UnsortedDictEncoder) :
    Option EncError × UnsortedDictEncoder :=
  (none, ps.foldl (fun a p => a.emit_pair p.1 p.2) u)

/-- The operation opening `n + 1` nested lists: each level is a list whose
sole member is the next level, the innermost list being empty. -/
def deepList : Nat → EncOp
  | 0 => .opList []
  | n + 1 => .opList [deepList n]

/-- The stored errors the core encoder's own operations can originate: none,
`UnsortedKeys`, or `NestingTooDeep` (module documentation of `encoding.rs`,
lines 100-104). -/
def coreErr : Option EncError → Prop
  | none => True
  | some er => er = .unsortedKeys ∨ er = .nestingTooDeep

/-- Canonical decimal integer text (spec section 6): an optional minus (never
on zero), then a digit run with no leading zeros. -/
def canonIntStr (s : List Nat) : Bool :=
  match s with
  | [] => false
  | d :: ds => if d = 45 then canonNat ds && digitsVal ds != 0 else canonNat s

/-! Digit arithmetic lemmas. -/

theorem natDecimalGo_eq : ∀ n fuel : Nat, n < fuel → natDecimalGo fuel n = natDecimal n := by
  intro n
  induction n using Nat.strong_induction_on with
  | _ n ih =>
    intro fuel hf
    obtain ⟨f, rfl⟩ : ∃ f, fuel = f + 1 := ⟨fuel - 1, by omega⟩
    by_cases h10 : n < 10
    · show natDecimalGo (f + 1) n = natDecimalGo (n + 1) n
      simp [natDecimalGo, h10]
    · have hdiv : n / 10 < n := Nat.div_lt_self (by omega) (by omega)
      show natDecimalGo (f + 1) n = natDecimalGo (n + 1) n
      simp only [natDecimalGo, if_neg h10]
      rw [ih (n / 10) hdiv f (by omega), ih (n / 10) hdiv n hdiv]

theorem natDecimal_eq (n : Nat) :
    natDecimal n = if n < 10 then [48 + n] else natDecimal (n / 10) ++ [48 + n % 10] := by
  show natDecimalGo (n + 1) n = _
  by_cases h10 : n < 10
  · simp [natDecimalGo, h10]
  · simp only [natDecimalGo, if_neg h10]
    rw [natDecimalGo_eq (n / 10) n (Nat.div_lt_self (by omega) (by omega))]

theorem natDecimal_ne_nil (n : Nat) : natDecimal n ≠ [] := by
  rw [natDecimal_eq]
  split <;> simp

theorem natDecimal_digits (n : Nat) : ∀ d ∈ natDecimal n, 48 ≤ d ∧ d ≤ 57 := by
  induction n using Nat.strong_induction_on with
  | _ n ih =>
    intro d hd
    rw [natDecimal_eq] at hd
    by_cases h10 : n < 10
    · rw [if_pos h10] at hd
      simp at hd
      omega
    · rw [if_neg h10] at hd
      rcases List.mem_append.mp hd with h | h
      · exact ih (n / 10) (Nat.div_lt_self (by omega) (by omega)) d h
      · have hm : n % 10 < 10 := Nat.mod_lt n (by omega)
        simp at h
        omega

theorem isDigit_natDecimal (n : Nat) : ∀ d ∈ natDecimal n, isDigit d = true := by
  intro d hd
  have h := natDecimal_digits n d hd
  simp [isDigit]
  omega

theorem natDecimal_head_ne_zero :
    ∀ n, 1 ≤ n → ∀ d, (natDecimal n).head? = some d → d ≠ 48 := by
  intro n
  induction n using Nat.strong_induction_on with
  | _ n ih =>
    intro hn d hd
    rw [natDecimal_eq] at hd
    by_cases h10 : n < 10
    · rw [if_pos h10] at hd
      simp at hd
      omega
    · rw [if_neg h10] at hd
      obtain ⟨a, t, hat⟩ : ∃ a t, natDecimal (n / 10) = a :: t := by
        rcases hnd : natDecimal (n / 10) with _ | ⟨a, t⟩
        · exact absurd hnd (natDecimal_ne_nil _)
        · exact ⟨a, t, rfl⟩
      rw [hat] at hd
      have hd' : a = d := by simpa using hd
      have h1 : 1 ≤ n / 10 := (Nat.le_div_iff_mul_le (by omega)).mpr (by omega)
      subst hd'
      exact ih (n / 10) (Nat.div_lt_self (by omega) (by omega)) h1 a (by simp [hat])

theorem canonNat_natDecimal (n : Nat) : canonNat (natDecimal n) = true := by
  rw [natDecimal_eq]
  by_cases h10 : n < 10
  · rw [if_pos h10]
    rfl
  · rw [if_neg h10]
    obtain ⟨a, t, hat⟩ : ∃ a t, natDecimal (n / 10) = a :: t := by
      rcases hnd : natDecimal (n / 10) with _ | ⟨a, t⟩
      · exact absurd hnd (natDecimal_ne_nil _)
      · exact ⟨a, t, rfl⟩
    have h1 : 1 ≤ n / 10 := (Nat.le_div_iff_mul_le (by omega)).mpr (by omega)
    have ha : a ≠ 48 := natDecimal_head_ne_zero (n / 10) h1 a (by rw [hat]; rfl)
    rw [hat]
    rcases t with _ | ⟨b, u⟩
    · simpa [canonNat] using ha
    · simpa [canonNat] using ha

theorem digitsVal_append_single (ds : List Nat) (d : Nat) :
    digitsVal (ds ++ [d]) = digitsVal ds * 10 + (d - 48) := by
  simp [digitsVal, List.foldl_append]

theorem digitsVal_natDecimal (n : Nat) : digitsVal (natDecimal n) = n := by
  induction n using Nat.strong_induction_on with
  | _ n ih =>
    rw [natDecimal_eq]
    by_cases h10 : n < 10
    · rw [if_pos h10]
      simp [digitsVal]
    · rw [if_neg h10, digitsVal_append_single,
        ih (n / 10) (Nat.div_lt_self (by omega) (by omega))]
      have hmod := Nat.div_add_mod n 10
      have hm : n % 10 < 10 := Nat.mod_lt n (by omega)
      omega

/-! Lexicographic order lemmas. -/

theorem lexLt_cons (x y : Nat) (t u : List Nat) :
    lexLt (x :: t) (y :: u) =
      if x < y then true else if y < x then false else lexLt t u := rfl

theorem lexLt_irrefl (a : List Nat) : lexLt a a = false := by
  induction a with
  | nil => rfl
  | cons x t ih => simp [lexLt_cons, ih]

theorem lexLt_asymm : ∀ a b : List Nat, lexLt a b = true → lexLt b a = false := by
  intro a
  induction a with
  | nil =>
    intro b h
    cases b with
    | nil => simp [lexLt] at h
    | cons y u => rfl
  | cons x t ih =>
    intro b h
    cases b with
    | nil => simp [lexLt] at h
    | cons y u =>
      rw [lexLt_cons] at h
      rw [lexLt_cons]
      rcases Nat.lt_trichotomy x y with hlt | heq | hgt
      · rw [if_neg (by omega), if_pos hlt]
      · subst heq
        rw [if_neg (lt_irrefl x), if_neg (lt_irrefl x)] at h
        rw [if_neg (lt_irrefl x), if_neg (lt_irrefl x)]
        exact ih u h
      · rw [if_neg (by omega), if_pos hgt] at h
        simp at h

theorem lexLt_eq_of_not :
    ∀ a b : List Nat, lexLt a b = false → lexLt b a = false → a = b := by
  intro a
  induction a with
  | nil =>
    intro b h1 _
    cases b with
    | nil => rfl
    | cons y u => simp [lexLt] at h1
  | cons x t ih =>
    intro b h1 h2
    cases b with
    | nil => simp [lexLt] at h2
    | cons y u =>
      rw [lexLt_cons] at h1 h2
      rcases Nat.lt_trichotomy x y with hlt | heq | hgt
      · rw [if_pos hlt] at h1
        simp at h1
      · subst heq
        rw [if_neg (lt_irrefl x), if_neg (lt_irrefl x)] at h1 h2
        rw [ih u h1 h2]
      · rw [if_pos hgt] at h2
        simp at h2

theorem lexLt_trans :
    ∀ a b c : List Nat, lexLt a b = true → lexLt b c = true → lexLt a c = true := by
  intro a
  induction a with
  | nil =>
    intro b c h1 h2
    cases b with
    | nil => simp [lexLt] at h1
    | cons y u =>
      cases c with
      | nil => simp [lexLt] at h2
      | cons z w => rfl
  | cons x t ih =>
    intro b c h1 h2
    cases b with
    | nil => simp [lexLt] at h1
    | cons y u =>
      cases c with
      | nil => simp [lexLt] at h2
      | cons z w =>
        rw [lexLt_cons] at h1 h2
        rw [lexLt_cons]
        rcases Nat.lt_trichotomy x y with hxy | hxy | hxy
        · rcases Nat.lt_trichotomy y z with hyz | hyz | hyz
          · rw [if_pos (by omega)]
          · rw [if_pos (by omega)]
          · rw [if_neg (by omega), if_pos hyz] at h2
            simp at h2
        · subst hxy
          rcases Nat.lt_trichotomy x z with hyz | hyz | hyz
          · rw [if_pos hyz]
          · subst hyz
            rw [if_neg (lt_irrefl x), if_neg (lt_irrefl x)] at h1 h2
            rw [if_neg (lt_irrefl x), if_neg (lt_irrefl x)]
            exact ih u w h1 h2
          · rw [if_neg (by omega), if_pos hyz] at h2
            simp at h2
        · rw [if_neg (by omega), if_pos hxy] at h1
          simp at h1

theorem keyLe_total (p q : List Nat × List Nat) : keyLe p q ∨ keyLe q p := by
  by_cases h : lexLt q.1 p.1 = false
  · exact Or.inl h
  · right
    have h' : lexLt q.1 p.1 = true := by
      revert h
      cases lexLt q.1 p.1 <;> simp
    exact lexLt_asymm _ _ h'

theorem keyLe_trans (p q r : List Nat × List Nat) (h1 : keyLe p q) (h2 : keyLe q r) :
    keyLe p r := by
  unfold keyLe at *
  by_cases hpq : lexLt p.1 q.1 = true
  · by_contra hc
    have hc' : lexLt r.1 p.1 = true := by
      revert hc
      cases lexLt r.1 p.1 <;> simp
    exact absurd (lexLt_trans _ _ _ hc' hpq) (by rw [h2]; simp)
  · have hpq' : lexLt p.1 q.1 = false := by
      revert hpq
      cases lexLt p.1 q.1 <;> simp
    have := lexLt_eq_of_not _ _ hpq' h1
    rw [← this] at h2
    exact h2

theorem natDecimal_head_digit (n : Nat) :
    ∃ a t, natDecimal n = a :: t ∧ 48 ≤ a ∧ a ≤ 57 := by
  rcases hnd : natDecimal n with _ | ⟨a, t⟩
  · exact absurd hnd (natDecimal_ne_nil n)
  · exact ⟨a, t, rfl, (natDecimal_digits n a (by simp [hnd])).1,
      (natDecimal_digits n a (by simp [hnd])).2⟩

theorem canonIntStr_intDecimal (n : Int) : canonIntStr (intDecimal n) = true := by
  by_cases hn : n < 0
  · have habs : n.natAbs ≠ 0 := by
      intro h
      rw [Int.natAbs_eq_zero] at h
      omega
    simp only [intDecimal, if_pos hn, canonIntStr, if_pos rfl]
    simp [canonNat_natDecimal, digitsVal_natDecimal, habs]
  · obtain ⟨a, t, hat, ha1, ha2⟩ := natDecimal_head_digit n.natAbs
    simp only [intDecimal, if_neg hn, hat, canonIntStr, if_neg (by omega : ¬a = 45)]
    rw [← hat]
    exact canonNat_natDecimal _

theorem intDecimal_minus_iff (n : Int) : (intDecimal n).head? = some 45 ↔ n < 0 := by
  by_cases hn : n < 0
  · simp [intDecimal, if_pos hn, hn]
  · obtain ⟨a, t, hat, ha1, ha2⟩ := natDecimal_head_digit n.natAbs
    simp only [intDecimal, if_neg hn, hat, List.head?_cons]
    constructor
    · intro h
      simp at h
      omega
    · intro h
      exact absurd h hn

/-- C6: for every integer `n` and error-free engine, `emit_int n` succeeds and
appends exactly the token `i` (105) + the canonical decimal form of `n` +
`e` (101) to the output buffer; the decimal form is canonical (no leading
zeros except the single digit for zero) and carries a leading minus exactly
when `n` is negative. -/
theorem claim_C6_emit_int_canonical (n : Int) (e : Encoder) (he : e.err = none) :
    e.emit_int n = (none, { e with output := e.output ++ 105 :: (intDecimal n ++ [101]) }) ∧
    canonIntStr (intDecimal n) = true ∧
    ((intDecimal n).head? = some 45 ↔ n < 0) := by
  refine ⟨?_, canonIntStr_intDecimal n, intDecimal_minus_iff n⟩
  simp [Encoder.emit_int, he, intToken]

theorem claim_C6_emit_int_canonical_witness :
    Encoder.new.err = none ∧
    (Encoder.new.emit_int 42 =
        (none, { Encoder.new with
                  output := Encoder.new.output ++ 105 :: (intDecimal 42 ++ [101]) }) ∧
      canonIntStr (intDecimal 42) = true ∧
      ((intDecimal 42).head? = some 45 ↔ (42 : Int) < 0)) ∧
    intToken 42 = [105, 52, 50, 101] ∧
    intToken (-3) = [105, 45, 51, 101] ∧
    intToken 0 = [105, 48, 101] :=
  ⟨rfl, claim_C6_emit_int_canonical 42 Encoder.new rfl, by decide, by decide, by decide⟩

/-- C7: for every byte sequence `b` and error-free engine, `emit_bytes b`
succeeds and appends the decimal length of `b`, the separator `:` (58), then
the bytes of `b` verbatim with no escaping; the length text is a canonical
digit run denoting exactly `b.length`. -/
theorem claim_C7_emit_bytes_verbatim (b : List Nat) (e : Encoder) (he : e.err = none) :
    e.emit_bytes b = (none, { e with output := e.output ++ (natDecimal b.length ++ 58 :: b) }) ∧
    canonNat (natDecimal b.length) = true ∧
    digitsVal (natDecimal b.length) = b.length := by
  refine ⟨?_, canonNat_natDecimal _, digitsVal_natDecimal _⟩
  simp [Encoder.emit_bytes, he, bytesToken]

theorem claim_C7_emit_bytes_verbatim_witness :
    Encoder.new.err = none ∧
    (Encoder.new.emit_bytes [115, 112, 97, 109] =
        (none, { Encoder.new with
                  output := Encoder.new.output ++
                    (natDecimal (List.length [115, 112, 97, 109]) ++
                      58 :: [115, 112, 97, 109]) }) ∧
      canonNat (natDecimal (List.length [115, 112, 97, 109])) = true ∧
      digitsVal (natDecimal (List.length [115, 112, 97, 109])) =
        List.length [115, 112, 97, 109]) ∧
    bytesToken [115, 112, 97, 109] = [52, 58, 115, 112, 97, 109] :=
  ⟨rfl, claim_C7_emit_bytes_verbatim [115, 112, 97, 109] Encoder.new rfl, by decide⟩

/-! Sticky-error lemmas. -/

theorem runOp_err (op : EncOp) (e : Encoder) (er : EncError) (h : e.err = some er) :
    runOp op e = (some er, e) := by
  cases op with
  | opInt n => simp [runOp, Encoder.emit_int, h]
  | opBytes b => simp [runOp, Encoder.emit_bytes, h]
  | opList ops => simp [runOp, Encoder.emit_list, Encoder.openContainer, h]
  | opDict ps => simp [runOp, Encoder.emit_dict, Encoder.openContainer, h]
  | opSortDict ps => simp [runOp, Encoder.emit_and_sort_dict, h]

theorem runSeq_err (ops : List EncOp) (e : Encoder) (er : EncError) (h : e.err = some er) :
    runSeq ops e = e := by
  induction ops with
  | nil => rfl
  | cons op t ih => simp [runSeq, runOp_err op e er h, ih]

/-- C2: once an engine has stored an error, every subsequent operation returns
that same error and leaves the whole engine state -- in particular the output
byte buffer -- unchanged, for any single operation and for any sequence of
further operations; `get_output` also reports the same error. -/
theorem claim_C2_sticky_error (e : Encoder) (er : EncError) (h : e.err = some er) :
    (∀ op : EncOp, runOp op e = (some er, e)) ∧
    (∀ ops : List EncOp, runSeq ops e = e) ∧
    e.get_output = .error er := by
  refine ⟨fun op => runOp_err op e er h, fun ops => runSeq_err ops e er h, ?_⟩
  simp [Encoder.get_output, h]

theorem claim_C2_sticky_error_witness :
    (⟨[105, 48, 101], 5, some .unsortedKeys, 0⟩ : Encoder).err = some .unsortedKeys ∧
    ((∀ op : EncOp,
        runOp op ⟨[105, 48, 101], 5, some .unsortedKeys, 0⟩ =
          (some .unsortedKeys, ⟨[105, 48, 101], 5, some .unsortedKeys, 0⟩)) ∧
      (∀ ops : List EncOp,
        runSeq ops ⟨[105, 48, 101], 5, some .unsortedKeys, 0⟩ =
          ⟨[105, 48, 101], 5, some .unsortedKeys, 0⟩) ∧
      Encoder.get_output ⟨[105, 48, 101], 5, some .unsortedKeys, 0⟩ =
        .error .unsortedKeys) :=
  ⟨rfl, claim_C2_sticky_error _ .unsortedKeys rfl⟩

/-! Depth-budget lemmas. -/

theorem deepList_ok (n : Nat) :
    ∀ e : Encoder, e.err = none → n + 1 ≤ e.remDepth →
    ∃ out, runOp (deepList n) e = (none, { e with output := out }) := by
  induction n with
  | zero =>
    intro e he hd
    refine ⟨e.output ++ [108] ++ [101], ?_⟩
    simp only [deepList, runOp, Encoder.emit_list, Encoder.openContainer, he,
      runItems]
    rw [if_neg (by omega)]
    simp [Encoder.mk.injEq]; omega
  | succ n ih =>
    intro e he hd
    obtain ⟨out, hout⟩ :=
      ih ⟨e.output ++ [108], e.remDepth - 1, none, e.items⟩ rfl
        (by show n + 1 ≤ e.remDepth - 1; omega)
    refine ⟨out ++ [101], ?_⟩
    simp only [deepList, runOp, Encoder.emit_list, Encoder.openContainer, he]
    rw [if_neg (by omega)]
    simp only [runItems, hout]
    simp [Encoder.mk.injEq]; omega

theorem deepList_tooDeep (n : Nat) :
    ∀ e : Encoder, e.err = none → e.remDepth ≤ n →
    ∃ e2, runOp (deepList n) e = (some .nestingTooDeep, e2) ∧
      e2.err = some .nestingTooDeep := by
  induction n with
  | zero =>
    intro e he hd
    refine ⟨{ e with err := some .nestingTooDeep }, ?_, rfl⟩
    simp only [deepList, runOp, Encoder.emit_list, Encoder.openContainer, he]
    rw [if_pos (by omega)]
  | succ n ih =>
    intro e he hd
    by_cases h0 : e.remDepth = 0
    · refine ⟨{ e with err := some .nestingTooDeep }, ?_, rfl⟩
      simp only [deepList, runOp, Encoder.emit_list, Encoder.openContainer, he]
      rw [if_pos h0]
    · obtain ⟨e2, he2, herr⟩ :=
        ih ⟨e.output ++ [108], e.remDepth - 1, none, e.items⟩ rfl
          (by show e.remDepth - 1 ≤ n; omega)
      refine ⟨{ e2 with err := some .nestingTooDeep }, ?_, rfl⟩
      simp only [deepList, runOp, Encoder.emit_list, Encoder.openContainer, he]
      rw [if_neg h0]
      simp only [runItems, he2, herr]
      simp [herr]

/-- C3: opening exactly as many nested containers as the configured depth
budget succeeds; opening one more container than the budget fails with the
`NestingTooDeep` error stored in the engine (a returned error value, not a
panic).  `deepList d` opens `d + 1` nested lists: with budget `d + 1` it
succeeds, while with budget `d` its innermost open is the `(d + 1)`-th
container against a budget of `d` and fails. -/
theorem claim_C3_depth_budget (d : Nat) :
    (∃ out, runOp (deepList d) (Encoder.new.with_max_depth (d + 1)) =
      (none, { Encoder.new.with_max_depth (d + 1) with output := out })) ∧
    (∃ e2, runOp (deepList d) (Encoder.new.with_max_depth d) =
      (some .nestingTooDeep, e2) ∧ e2.err = some .nestingTooDeep) :=
  ⟨deepList_ok d _ rfl (by simp [Encoder.new, Encoder.with_max_depth]),
    deepList_tooDeep d _ rfl (by simp [Encoder.new, Encoder.with_max_depth])⟩

/-- C4: in a sorted dict frame whose engine is error-free, emitting a key that
is not strictly greater (in raw byte lexicographic order) than the previous
key of the frame fails with `UnsortedKeys`, leaves the output buffer
untouched, and stores the error; afterwards every further `emit_pair` on the
frame returns the same `UnsortedKeys` error and accepts nothing. -/
theorem claim_C4_unsorted_keys (d : SortedDictEncoder) (prev k : List Nat)
    (he : d.enc.err = none) (hprev : d.lastKey = some prev)
    (hk : lexLt prev k = false) :
    (∀ cb, d.emit_pair k cb =
      (some .unsortedKeys, ⟨{ d.enc with err := some .unsortedKeys }, d.lastKey⟩)) ∧
    (∀ k' cb',
      (⟨{ d.enc with err := some .unsortedKeys }, d.lastKey⟩ : SortedDictEncoder).emit_pair
          k' cb' =
        (some .unsortedKeys,
          ⟨{ d.enc with err := some .unsortedKeys }, d.lastKey⟩)) := by
  constructor
  · intro cb
    simp [SortedDictEncoder.emit_pair, he, keyOk, hprev, hk]
  · intro k' cb'
    simp [SortedDictEncoder.emit_pair]

theorem claim_C4_unsorted_keys_witness :
    (⟨Encoder.new, some [102, 111, 111]⟩ : SortedDictEncoder).enc.err = none ∧
    (⟨Encoder.new, some [102, 111, 111]⟩ : SortedDictEncoder).lastKey =
      some [102, 111, 111] ∧
    lexLt [102, 111, 111] [98, 97, 114] = false ∧
    ((∀ cb, (⟨Encoder.new, some [102, 111, 111]⟩ : SortedDictEncoder).emit_pair
        [98, 97, 114] cb =
      (some .unsortedKeys,
        ⟨{ (⟨Encoder.new, some [102, 111, 111]⟩ : SortedDictEncoder).enc with
            err := some .unsortedKeys },
          (⟨Encoder.new, some [102, 111, 111]⟩ : SortedDictEncoder).lastKey⟩)) ∧
    (∀ k' cb',
      (⟨{ (⟨Encoder.new, some [102, 111, 111]⟩ : SortedDictEncoder).enc with
            err := some .unsortedKeys },
          (⟨Encoder.new, some [102, 111, 111]⟩ : SortedDictEncoder).lastKey⟩ :
            SortedDictEncoder).emit_pair k' cb' =
        (some .unsortedKeys,
          ⟨{ (⟨Encoder.new, some [102, 111, 111]⟩ : SortedDictEncoder).enc with
              err := some .unsortedKeys },
            (⟨Encoder.new, some [102, 111, 111]⟩ : SortedDictEncoder).lastKey⟩))) :=
  ⟨rfl, rfl, by decide,
    claim_C4_unsorted_keys ⟨Encoder.new, some [102, 111, 111]⟩ [102, 111, 111]
      [98, 97, 114] rfl rfl (by decide)⟩

/-- C8: on an error-free engine, `get_output` returns the finished byte buffer
exactly when one top-level value has been emitted; with nothing emitted it
yields the `NothingEmitted` error condition, and after more than one
completed top-level emission it yields `EmitAfterTop` instead of a byte
buffer; finally, a successful top-level `emit` raises the completed-emission
count by one, so a second successful top-level emission drives it past one. -/
theorem claim_C8_get_output_single (e : Encoder) (he : e.err = none) :
    (e.items = 1 → e.get_output = .ok e.output) ∧
    (e.items = 0 → e.get_output = .error .nothingEmitted) ∧
    (2 ≤ e.items → e.get_output = .error .emitAfterTop) ∧
    (∀ cb e1, cb e = (none, e1) → (e.emit cb).2.items = e1.items + 1) := by
  refine ⟨?_, ?_, ?_, ?_⟩
  · intro h1
    simp [Encoder.get_output, he, h1]
  · intro h0
    simp [Encoder.get_output, he, h0]
  · intro h2
    rw [Encoder.get_output]
    rw [he]
    rw [if_neg (by omega), if_neg (by omega)]
  · intro cb e1 hcb
    simp [Encoder.emit, he, hcb]

theorem claim_C8_get_output_single_witness :
    (⟨[105, 48, 101], 7, none, 1⟩ : Encoder).err = none ∧
    (((⟨[105, 48, 101], 7, none, 1⟩ : Encoder).items = 1 →
        Encoder.get_output ⟨[105, 48, 101], 7, none, 1⟩ = .ok [105, 48, 101]) ∧
      ((⟨[105, 48, 101], 7, none, 1⟩ : Encoder).items = 0 →
        Encoder.get_output ⟨[105, 48, 101], 7, none, 1⟩ = .error .nothingEmitted) ∧
      (2 ≤ (⟨[105, 48, 101], 7, none, 1⟩ : Encoder).items →
        Encoder.get_output ⟨[105, 48, 101], 7, none, 1⟩ = .error .emitAfterTop) ∧
      (∀ cb e1, cb ⟨[105, 48, 101], 7, none, 1⟩ = (none, e1) →
        (Encoder.emit ⟨[105, 48, 101], 7, none, 1⟩ cb).2.items = e1.items + 1)) :=
  ⟨rfl, claim_C8_get_output_single ⟨[105, 48, 101], 7, none, 1⟩ rfl⟩

/-- C9: for an error-free engine with nonzero depth budget, `emit_list` and
`emit_dict` invoke their callback on the engine with the budget decremented
and the container-open token appended; if the callback reports an error the
engine propagates that error, appends no close token (the callback's buffer
is returned unchanged) and is left in the error state, while on success the
close token is appended and the depth budget restored. -/
theorem claim_C9_container_callback (e : Encoder) (he : e.err = none)
    (h0 : e.remDepth ≠ 0) :
    (∀ cb er e2,
      cb { e with remDepth := e.remDepth - 1, output := e.output ++ [108] } = (some er, e2) →
      e.emit_list cb = (some er, { e2 with err := some (e2.err.getD er) }) ∧
      ({ e2 with err := some (e2.err.getD er) } : Encoder).output = e2.output ∧
      ∃ er2, ({ e2 with err := some (e2.err.getD er) } : Encoder).err = some er2) ∧
    (∀ cb e2,
      cb { e with remDepth := e.remDepth - 1, output := e.output ++ [108] } = (none, e2) →
      e.emit_list cb = (none, { e2 with output := e2.output ++ [101], remDepth := e2.remDepth + 1 })) ∧
    (∀ cb er d2,
      cb (⟨{ e with remDepth := e.remDepth - 1, output := e.output ++ [100] }, none⟩ :
          SortedDictEncoder) = (some er, d2) →
      e.emit_dict cb = (some er, { d2.enc with err := some (d2.enc.err.getD er) })) ∧
    (∀ cb d2,
      cb (⟨{ e with remDepth := e.remDepth - 1, output := e.output ++ [100] }, none⟩ :
          SortedDictEncoder) = (none, d2) →
      e.emit_dict cb = (none, { d2.enc with output := d2.enc.output ++ [101], remDepth := d2.enc.remDepth + 1 })) := by
  refine ⟨?_, ?_, ?_, ?_⟩
  · intro cb er e2 hcb
    simp only [he] at hcb
    refine ⟨?_, rfl, e2.err.getD er, rfl⟩
    simp only [Encoder.emit_list, Encoder.openContainer, he]
    rw [if_neg h0, hcb]
  · intro cb e2 hcb
    simp only [he] at hcb
    simp only [Encoder.emit_list, Encoder.openContainer, he]
    rw [if_neg h0, hcb]
  · intro cb er d2 hcb
    simp only [he] at hcb
    simp only [Encoder.emit_dict, Encoder.openContainer, he]
    rw [if_neg h0]
    simp only [hcb]
  · intro cb d2 hcb
    simp only [he] at hcb
    simp only [Encoder.emit_dict, Encoder.openContainer, he]
    rw [if_neg h0]
    simp only [hcb]

theorem claim_C9_container_callback_witness :
    Encoder.new.err = none ∧ Encoder.new.remDepth ≠ 0 ∧
    ((∀ cb er e2,
      cb { Encoder.new with remDepth := Encoder.new.remDepth - 1, output := Encoder.new.output ++ [108] } = (some er, e2) →
      Encoder.new.emit_list cb = (some er, { e2 with err := some (e2.err.getD er) }) ∧
      ({ e2 with err := some (e2.err.getD er) } : Encoder).output = e2.output ∧
      ∃ er2, ({ e2 with err := some (e2.err.getD er) } : Encoder).err = some er2) ∧
    (∀ cb e2,
      cb { Encoder.new with remDepth := Encoder.new.remDepth - 1, output := Encoder.new.output ++ [108] } = (none, e2) →
      Encoder.new.emit_list cb = (none, { e2 with output := e2.output ++ [101], remDepth := e2.remDepth + 1 })) ∧
    (∀ cb er d2,
      cb (⟨{ Encoder.new with remDepth := Encoder.new.remDepth - 1, output := Encoder.new.output ++ [100] }, none⟩ :
          SortedDictEncoder) = (some er, d2) →
      Encoder.new.emit_dict cb = (some er, { d2.enc with err := some (d2.enc.err.getD er) })) ∧
    (∀ cb d2,
      cb (⟨{ Encoder.new with remDepth := Encoder.new.remDepth - 1, output := Encoder.new.output ++ [100] }, none⟩ :
          SortedDictEncoder) = (none, d2) →
      Encoder.new.emit_dict cb = (none, { d2.enc with output := d2.enc.output ++ [101], remDepth := d2.enc.remDepth + 1 }))) :=
  ⟨rfl, by decide, claim_C9_container_callback Encoder.new rfl (by decide)⟩

/-! Error-kind lemmas: the core's own operations only ever store or return
`UnsortedKeys` or `NestingTooDeep`. -/

theorem openContainer_coreErr (e : Encoder) (tok : Nat)
    (cb : Encoder → Option EncError × Encoder)
    (hcb : ∀ e1 : Encoder, e1.err = none → coreErr (cb e1).1 ∧ coreErr (cb e1).2.err)
    (he : coreErr e.err) :
    coreErr (e.openContainer tok cb).1 ∧ coreErr (e.openContainer tok cb).2.err := by
  rcases herr : e.err with _ | er
  · by_cases h0 : e.remDepth = 0
    · simp [Encoder.openContainer, herr, h0, coreErr]
    · have h1 := hcb ⟨e.output ++ [tok], e.remDepth - 1, none, e.items⟩ rfl
      rcases hres : cb ⟨e.output ++ [tok], e.remDepth - 1, none, e.items⟩ with ⟨r, e2⟩
      rw [hres] at h1
      simp only [Encoder.openContainer, herr, if_neg h0, hres]
      rcases r with _ | er2
      · exact ⟨True.intro, by simpa using h1.2⟩
      · refine ⟨by simpa using h1.1, ?_⟩
        rcases he2 : e2.err with _ | x
        · rw [he2] at h1
          simpa [he2] using h1.1
        · rw [he2] at h1
          simpa [he2] using h1.2
  · rw [herr] at he
    simp only [Encoder.openContainer, herr]
    exact ⟨he, he⟩

theorem emit_pair_coreErr (d : SortedDictEncoder) (k : List Nat)
    (cb : Encoder → Option EncError × Encoder)
    (hcb : ∀ e1 : Encoder, e1.err = none → coreErr (cb e1).1 ∧ coreErr (cb e1).2.err)
    (he : coreErr d.enc.err) :
    coreErr (d.emit_pair k cb).1 ∧ coreErr (d.emit_pair k cb).2.enc.err := by
  rcases herr : d.enc.err with _ | er
  · by_cases hkey : keyOk d.lastKey k = true
    · have h1 := hcb ⟨d.enc.output ++ bytesToken k, d.enc.remDepth, none, d.enc.items⟩ rfl
      rcases hres : cb ⟨d.enc.output ++ bytesToken k, d.enc.remDepth, none, d.enc.items⟩
        with ⟨r, e2⟩
      rw [hres] at h1
      simp only [SortedDictEncoder.emit_pair, herr, if_pos hkey, hres]
      rcases r with _ | er2
      · exact ⟨True.intro, by simpa using h1.2⟩
      · refine ⟨by simpa using h1.1, ?_⟩
        rcases he2 : e2.err with _ | x
        · rw [he2] at h1
          simpa [he2] using h1.1
        · rw [he2] at h1
          simpa [he2] using h1.2
    · have hkey' : keyOk d.lastKey k = false := by
        revert hkey
        cases keyOk d.lastKey k <;> simp
      simp [SortedDictEncoder.emit_pair, herr, hkey', coreErr]
  · rw [herr] at he
    simp only [SortedDictEncoder.emit_pair, herr]
    exact ⟨he, he⟩

mutual

theorem runOp_coreErr (op : EncOp) (e : Encoder) (he : coreErr e.err) :
    coreErr (runOp op e).1 ∧ coreErr (runOp op e).2.err := by
  cases op with
  | opInt n =>
    rcases herr : e.err with _ | er
    · simp [runOp, Encoder.emit_int, herr, coreErr]
    · rw [herr] at he
      simp only [runOp, Encoder.emit_int, herr]
      exact ⟨he, he⟩
  | opBytes b =>
    rcases herr : e.err with _ | er
    · simp [runOp, Encoder.emit_bytes, herr, coreErr]
    · rw [herr] at he
      simp only [runOp, Encoder.emit_bytes, herr]
      exact ⟨he, he⟩
  | opList ops =>
    exact openContainer_coreErr e 108 _
      (fun e1 he1 => runItems_coreErr ops e1 (by rw [he1]; exact trivial)) he
  | opDict ps =>
    refine openContainer_coreErr e 100 _ ?_ he
    intro e1 he1
    have h := runPairs_coreErr ps ⟨e1, none⟩ (by rw [show (⟨e1, none⟩ : SortedDictEncoder).enc.err = e1.err from rfl, he1]; exact trivial)
    rcases hres : runPairs ps ⟨e1, none⟩ with ⟨r, d⟩
    rw [hres] at h
    simpa [hres] using h
  | opSortDict ps =>
    rcases herr : e.err with _ | er
    · by_cases h0 : e.remDepth = 0
      · simp [runOp, Encoder.emit_and_sort_dict, herr, h0, coreErr]
      · simp only [runOp, Encoder.emit_and_sort_dict, herr, if_neg h0]
        by_cases hdup : hasDupKeys (sortPairs ps) = true
        · simp [hdup, coreErr]
        · simp [hdup, coreErr, herr]
    · rw [herr] at he
      simp only [runOp, Encoder.emit_and_sort_dict, herr]
      exact ⟨he, he⟩

theorem runItems_coreErr (ops : List EncOp) (e : Encoder) (he : coreErr e.err) :
    coreErr (runItems ops e).1 ∧ coreErr (runItems ops e).2.err := by
  cases ops with
  | nil => exact ⟨True.intro, by simpa [runItems] using he⟩
  | cons op t =>
    have h1 := runOp_coreErr op e he
    rcases hres : runOp op e with ⟨r, e1⟩
    rw [hres] at h1
    rcases r with _ | er
    · have h2 := runItems_coreErr t e1 h1.2
      simpa [runItems, hres] using h2
    · simpa [runItems, hres] using h1

theorem runPairs_coreErr (ps : List (List Nat × EncOp)) (d : SortedDictEncoder)
    (he : coreErr d.enc.err) :
    coreErr (runPairs ps d).1 ∧ coreErr (runPairs ps d).2.enc.err := by
  cases ps with
  | nil => exact ⟨True.intro, by simpa [runPairs] using he⟩
  | cons p t =>
    rcases p with ⟨k, op⟩
    have hep := emit_pair_coreErr d k (fun e1 => runOp op e1)
      (fun e1 he1 => runOp_coreErr op e1 (by rw [he1]; exact trivial)) he
    rcases hres : d.emit_pair k (fun e1 => runOp op e1) with ⟨r, d1⟩
    rw [hres] at hep
    rcases r with _ | er
    · have h2 := runPairs_coreErr t d1 hep.2
      simpa [runPairs, hres] using h2
    · simpa [runPairs, hres] using hep

end

theorem runSeq_coreErr (ops : List EncOp) (e : Encoder) (he : coreErr e.err) :
    coreErr (runSeq ops e).err := by
  induction ops generalizing e with
  | nil => simpa [runSeq] using he
  | cons op t ih =>
    have h := runOp_coreErr op e he
    simp only [runSeq]
    exact ih _ h.2

/-- C10: for any engine whose stored error is one the core itself can
originate -- in particular a fresh, error-free engine -- every encoding
operation returns, and every sequence of encoding operations stores, either
no error or one of exactly the two kinds `UnsortedKeys` and `NestingTooDeep`;
the modelled operation trees are exactly those in which every user-supplied
encode callback succeeds, so no other error value is produced by the core's
own operations. -/
theorem claim_C10_core_error_kinds (e : Encoder) (he : coreErr e.err) :
    (∀ op : EncOp, coreErr (runOp op e).1 ∧ coreErr (runOp op e).2.err) ∧
    (∀ ops : List EncOp, coreErr (runSeq ops e).err) :=
  ⟨fun op => runOp_coreErr op e he, fun ops => runSeq_coreErr ops e he⟩

theorem claim_C10_core_error_kinds_witness :
    coreErr Encoder.new.err ∧
    ((∀ op : EncOp, coreErr (runOp op Encoder.new).1 ∧ coreErr (runOp op Encoder.new).2.err) ∧
      (∀ ops : List EncOp, coreErr (runSeq ops Encoder.new).err)) :=
  ⟨True.intro, claim_C10_core_error_kinds Encoder.new True.intro⟩

/-! Buffering-builder lemmas. -/

theorem supplyPairs_eq (ps : List (List Nat × List Nat)) (u : UnsortedDictEncoder) :
    supplyPairs ps u = (none, ⟨u.pairs ++ ps⟩) := by
  unfold supplyPairs
  congr 1
  induction ps generalizing u with
  | nil => simp
  | cons p t ih =>
    simp only [List.foldl_cons]
    rw [ih]
    simp [UnsortedDictEncoder.emit_pair]

theorem sortPairs_perm (ps : List (List Nat × List Nat)) : (sortPairs ps).Perm ps :=
  List.perm_insertionSort keyLe ps

theorem sortPairs_sorted (ps : List (List Nat × List Nat)) :
    List.Pairwise keyLe (sortPairs ps) := by
  haveI h1 : IsTotal (List Nat × List Nat) keyLe := ⟨keyLe_total⟩
  haveI h2 : IsTrans (List Nat × List Nat) keyLe := ⟨fun p q r => keyLe_trans p q r⟩
  exact List.sorted_insertionSort keyLe ps

theorem pairwise_strict_of_sorted_nodup :
    ∀ l : List (List Nat × List Nat), List.Pairwise keyLe l →
    (l.map Prod.fst).Nodup → List.Pairwise (fun p q => lexLt p.1 q.1 = true) l := by
  intro l
  induction l with
  | nil =>
    intro _ _
    exact List.Pairwise.nil
  | cons p t ih =>
    intro hs hnd
    rw [List.pairwise_cons] at hs ⊢
    rw [List.map_cons, List.nodup_cons] at hnd
    refine ⟨?_, ih hs.2 hnd.2⟩
    intro q hq
    have h1 : keyLe p q := hs.1 q hq
    have h2 : p.1 ≠ q.1 := by
      intro hcontr
      exact hnd.1 (by rw [hcontr]; exact List.mem_map_of_mem Prod.fst hq)
    cases hlt : lexLt p.1 q.1 with
    | true => rfl
    | false => exact absurd (lexLt_eq_of_not p.1 q.1 hlt h1) h2

theorem hasDupKeys_eq_false (l : List (List Nat × List Nat))
    (h : (l.map Prod.fst).Nodup) : hasDupKeys l = false := by
  induction l with
  | nil => rfl
  | cons p t ih =>
    cases t with
    | nil => rfl
    | cons q u =>
      rw [List.map_cons, List.nodup_cons] at h
      have hpq : p.1 ≠ q.1 := by
        intro hc
        exact h.1 (by rw [hc]; exact List.mem_map_of_mem Prod.fst (by simp))
      simp only [hasDupKeys, if_neg hpq]
      exact ih h.2

theorem sorted_pairs_unique :
    ∀ l1 l2 : List (List Nat × List Nat), l1.Perm l2 →
    List.Pairwise (fun p q => lexLt p.1 q.1 = true) l1 →
    List.Pairwise (fun p q => lexLt p.1 q.1 = true) l2 → l1 = l2 := by
  intro l1
  induction l1 with
  | nil =>
    intro l2 hp _ _
    exact (List.Perm.eq_nil hp.symm).symm
  | cons a t ih =>
    intro l2 hp h1 h2
    cases l2 with
    | nil => exact absurd hp.eq_nil (by simp)
    | cons b u =>
      by_cases hab : a = b
      · subst hab
        have hp' := hp.cons_inv
        rw [List.pairwise_cons] at h1 h2
        rw [ih u hp' h1.2 h2.2]
      · have ha2 : a ∈ b :: u := hp.mem_iff.mp (by simp)
        have hau : a ∈ u := by
          rcases List.mem_cons.mp ha2 with h | h
          · exact absurd h hab
          · exact h
        have hb1 : b ∈ a :: t := hp.mem_iff.mpr (by simp)
        have hbt : b ∈ t := by
          rcases List.mem_cons.mp hb1 with h | h
          · exact absurd h.symm hab
          · exact h
        rw [List.pairwise_cons] at h1 h2
        have hba : lexLt b.1 a.1 = true := h2.1 a hau
        have hab' : lexLt a.1 b.1 = true := h1.1 b hbt
        rw [lexLt_asymm _ _ hab'] at hba
        exact absurd hba (by simp)

/-- C5: through the buffering builder, the keys appear in the output in
strictly ascending byte-lexicographic order regardless of the order in which
the pairs were supplied: any two supply orders of the same pairs with
distinct keys succeed and produce identical engine results, the written dict
is `d` + the key-sorted pairs + `e`, and the written key sequence is sorted. -/
theorem claim_C5_buffering_builder (ps qs : List (List Nat × List Nat))
    (hperm : ps.Perm qs) (hnd : (ps.map Prod.fst).Nodup)
    (e : Encoder) (he : e.err = none) (h0 : e.remDepth ≠ 0) :
    e.emit_and_sort_dict (supplyPairs ps) = e.emit_and_sort_dict (supplyPairs qs) ∧
    (e.emit_and_sort_dict (supplyPairs ps)).1 = none ∧
    (e.emit_and_sort_dict (supplyPairs ps)).2.output =
      e.output ++ 100 :: (flattenPairs (sortPairs ps) ++ [101]) ∧
    List.Pairwise (fun a b => lexLt a b = true) ((sortPairs ps).map Prod.fst) := by
  have hndp : ((sortPairs ps).map Prod.fst).Nodup :=
    (((sortPairs_perm ps).map Prod.fst).nodup_iff).mpr hnd
  have hndq : (qs.map Prod.fst).Nodup := ((hperm.map Prod.fst).nodup_iff).mp hnd
  have hndq' : ((sortPairs qs).map Prod.fst).Nodup :=
    (((sortPairs_perm qs).map Prod.fst).nodup_iff).mpr hndq
  have hstrict : List.Pairwise (fun p q => lexLt p.1 q.1 = true) (sortPairs ps) :=
    pairwise_strict_of_sorted_nodup _ (sortPairs_sorted ps) hndp
  have hstrictq : List.Pairwise (fun p q => lexLt p.1 q.1 = true) (sortPairs qs) :=
    pairwise_strict_of_sorted_nodup _ (sortPairs_sorted qs) hndq'
  have hsort_eq : sortPairs ps = sortPairs qs :=
    sorted_pairs_unique _ _
      ((sortPairs_perm ps).trans (hperm.trans (sortPairs_perm qs).symm)) hstrict hstrictq
  have hdup : hasDupKeys (sortPairs ps) = false := hasDupKeys_eq_false _ hndp
  have hcomp : ∀ rs : List (List Nat × List Nat), hasDupKeys (sortPairs rs) = false →
      e.emit_and_sort_dict (supplyPairs rs) =
        (none, { e with output := e.output ++ 100 :: (flattenPairs (sortPairs rs) ++ [101]) }) := by
    intro rs hdup'
    simp only [Encoder.emit_and_sort_dict, he, supplyPairs_eq, List.nil_append]
    rw [if_neg h0]
    simp [hdup']
  refine ⟨?_, ?_, ?_, (List.pairwise_map).mpr hstrict⟩
  · rw [hcomp ps hdup, hcomp qs (by rw [← hsort_eq]; exact hdup), hsort_eq]
  · rw [hcomp ps hdup]
  · rw [hcomp ps hdup]

theorem claim_C5_buffering_builder_witness :
    ([([102, 111, 111], intToken 1), ([98, 97, 114], bytesToken [113, 117, 117, 120])] :
        List (List Nat × List Nat)).Perm
      [([98, 97, 114], bytesToken [113, 117, 117, 120]), ([102, 111, 111], intToken 1)] ∧
    (([([102, 111, 111], intToken 1), ([98, 97, 114], bytesToken [113, 117, 117, 120])] :
        List (List Nat × List Nat)).map Prod.fst).Nodup ∧
    Encoder.new.err = none ∧ Encoder.new.remDepth ≠ 0 ∧
    (Encoder.new.emit_and_sort_dict
        (supplyPairs [([102, 111, 111], intToken 1),
          ([98, 97, 114], bytesToken [113, 117, 117, 120])]) =
      Encoder.new.emit_and_sort_dict
        (supplyPairs [([98, 97, 114], bytesToken [113, 117, 117, 120]),
          ([102, 111, 111], intToken 1)]) ∧
      (Encoder.new.emit_and_sort_dict
        (supplyPairs [([102, 111, 111], intToken 1),
          ([98, 97, 114], bytesToken [113, 117, 117, 120])])).1 = none ∧
      (Encoder.new.emit_and_sort_dict
        (supplyPairs [([102, 111, 111], intToken 1),
          ([98, 97, 114], bytesToken [113, 117, 117, 120])])).2.output =
        Encoder.new.output ++ 100 ::
          (flattenPairs (sortPairs [([102, 111, 111], intToken 1),
            ([98, 97, 114], bytesToken [113, 117, 117, 120])]) ++ [101]) ∧
      List.Pairwise (fun a b => lexLt a b = true)
        ((sortPairs [([102, 111, 111], intToken 1),
          ([98, 97, 114], bytesToken [113, 117, 117, 120])]).map Prod.fst)) ∧
    (Encoder.new.emit_and_sort_dict
        (supplyPairs [([102, 111, 111], intToken 1),
          ([98, 97, 114], bytesToken [113, 117, 117, 120])])).2.output =
      [100, 51, 58, 98, 97, 114, 52, 58, 113, 117, 117, 120,
        51, 58, 102, 111, 111, 105, 49, 101, 101] :=
  ⟨by decide, by decide, rfl, by decide,
    claim_C5_buffering_builder _ _ (by decide) (by decide) Encoder.new rfl (by decide),
    by decide⟩

/-! Round-trip, encode side: on a valid value with enough depth budget the
engine succeeds and appends exactly the wire bytes. -/

mutual

theorem encodeV_ok (v : Value) (e : Encoder) (he : e.err = none)
    (hd : depthV v ≤ e.remDepth) (hv : validV v = true) :
    encodeV v e = (none, { e with output := e.output ++ reprV v }) := by
  cases v with
  | int n =>
    simp [encodeV, Encoder.emit_int, he, reprV]
  | bytes b =>
    simp [encodeV, Encoder.emit_bytes, he, reprV]
  | list items =>
    have hdd : depthItems items + 1 ≤ e.remDepth := by simpa [depthV] using hd
    have hne : e.remDepth ≠ 0 := by omega
    have hv' : validItems items = true := by simpa [validV] using hv
    have hrec := encItems_ok items ⟨e.output ++ [108], e.remDepth - 1, none, e.items⟩ rfl
      (by show depthItems items ≤ e.remDepth - 1; omega) hv'
    simp only [encodeV, Encoder.emit_list, Encoder.openContainer, he]
    rw [if_neg hne]
    simp only [hrec]
    simp [Encoder.mk.injEq, reprV]
    omega
  | dict ps =>
    have hdd : depthPairs ps + 1 ≤ e.remDepth := by simpa [depthV] using hd
    have hne : e.remDepth ≠ 0 := by omega
    have hv' : keysAscendFrom none ps = true ∧ validPairs ps = true := by
      simpa [validV] using hv
    obtain ⟨lk, hrec⟩ := encPairs_ok ps
      ⟨⟨e.output ++ [100], e.remDepth - 1, none, e.items⟩, none⟩ rfl
      (by show depthPairs ps ≤ e.remDepth - 1; omega) hv'.1 hv'.2
    simp only [encodeV, Encoder.emit_dict, Encoder.openContainer, he]
    rw [if_neg hne]
    simp only [hrec]
    simp [Encoder.mk.injEq, reprV]
    omega

theorem encItems_ok (items : List Value) (e : Encoder) (he : e.err = none)
    (hd : depthItems items ≤ e.remDepth) (hv : validItems items = true) :
    encItems items e = (none, { e with output := e.output ++ reprItems items }) := by
  cases items with
  | nil =>
    simp [encItems, reprItems]
  | cons v t =>
    have hd1 : depthV v ≤ e.remDepth := by
      have : max (depthV v) (depthItems t) ≤ e.remDepth := by simpa [depthItems] using hd
      omega
    have hd2 : depthItems t ≤ e.remDepth := by
      have : max (depthV v) (depthItems t) ≤ e.remDepth := by simpa [depthItems] using hd
      omega
    have hv' : validV v = true ∧ validItems t = true := by
      simpa [validItems] using hv
    have h1 := encodeV_ok v e he hd1 hv'.1
    have h2 := encItems_ok t { e with output := e.output ++ reprV v } (by simpa using he)
      (by simpa using hd2) hv'.2
    simp only [encItems, h1, h2]
    simp [reprItems]

theorem encPairs_ok (ps : List (List Nat × Value)) (d : SortedDictEncoder)
    (he : d.enc.err = none) (hd : depthPairs ps ≤ d.enc.remDepth)
    (hk : keysAscendFrom d.lastKey ps = true) (hv : validPairs ps = true) :
    ∃ lk, encPairs ps d =
      (none, ⟨{ d.enc with output := d.enc.output ++ reprPairs ps }, lk⟩) := by
  cases ps with
  | nil =>
    refine ⟨d.lastKey, ?_⟩
    simp [encPairs, reprPairs]
  | cons p t =>
    rcases p with ⟨k, v⟩
    have hkey : keyOk d.lastKey k = true ∧ keysAscendFrom (some k) t = true := by
      simpa [keysAscendFrom] using hk
    have hd1 : depthV v ≤ d.enc.remDepth := by
      have : max (depthV v) (depthPairs t) ≤ d.enc.remDepth := by simpa [depthPairs] using hd
      omega
    have hd2 : depthPairs t ≤ d.enc.remDepth := by
      have : max (depthV v) (depthPairs t) ≤ d.enc.remDepth := by simpa [depthPairs] using hd
      omega
    have hv' : validV v = true ∧ validPairs t = true := by
      simpa [validPairs] using hv
    have h1 := encodeV_ok v
      ⟨d.enc.output ++ bytesToken k, d.enc.remDepth, none, d.enc.items⟩ rfl
      (by show depthV v ≤ d.enc.remDepth; omega) hv'.1
    obtain ⟨lk, h2⟩ := encPairs_ok t
      ⟨⟨(d.enc.output ++ bytesToken k) ++ reprV v, d.enc.remDepth, none, d.enc.items⟩,
        some k⟩ rfl (by show depthPairs t ≤ d.enc.remDepth; omega)
      (by simpa [keysAscendFrom] using hkey.2) hv'.2
    refine ⟨lk, ?_⟩
    simp only [encPairs, SortedDictEncoder.emit_pair, he, if_pos hkey.1, h1, h2]
    simp [reprPairs]

end

/-! Round-trip, decode side. -/

theorem readDigits_append (ds rest : List Nat) (hds : ∀ d ∈ ds, isDigit d = true)
    (hrest : ∀ c t, rest = c :: t → isDigit c = false) :
    readDigits (ds ++ rest) = (ds, rest) := by
  induction ds with
  | nil =>
    cases rest with
    | nil => rfl
    | cons c t => simp [readDigits, hrest c t rfl]
  | cons d t ih =>
    have hd : isDigit d = true := hds d (by simp)
    have ih' := ih (fun x hx => hds x (by simp [hx]))
    simp [readDigits, hd, ih']

theorem decodeBytesRaw_bytesToken (b rest : List Nat) :
    decodeBytesRaw (bytesToken b ++ rest) = some (b, rest) := by
  have h1 : bytesToken b ++ rest = natDecimal b.length ++ (58 :: (b ++ rest)) := by
    simp [bytesToken]
  rw [h1]
  unfold decodeBytesRaw
  rw [readDigits_append _ _ (isDigit_natDecimal _) (by intro c t h; cases h; rfl)]
  simp [canonNat_natDecimal, digitsVal_natDecimal, List.take_left, List.drop_left,
    Nat.le_add_right]

theorem decodeInt_intDecimal (n : Int) (rest : List Nat) :
    decodeInt (intDecimal n ++ 101 :: rest) = some (.int n, rest) := by
  by_cases hn : n < 0
  · have habs : n.natAbs ≠ 0 := by omega
    have h1 : intDecimal n ++ 101 :: rest = 45 :: (natDecimal n.natAbs ++ 101 :: rest) := by
      simp [intDecimal, hn]
    rw [h1]
    simp only [decodeInt, if_true]
    rw [readDigits_append _ _ (isDigit_natDecimal _) (by intro c t h; cases h; rfl)]
    simp [canonNat_natDecimal, digitsVal_natDecimal, habs, Int.natCast_natAbs, abs_of_neg hn]
  · obtain ⟨a, t, hat, ha1, ha2⟩ := natDecimal_head_digit n.natAbs
    have h1 : intDecimal n ++ 101 :: rest = a :: (t ++ 101 :: rest) := by
      simp [intDecimal, hn, hat]
    rw [h1]
    simp only [decodeInt]
    rw [if_neg (by omega)]
    rw [show a :: (t ++ 101 :: rest) = natDecimal n.natAbs ++ 101 :: rest by simp [hat]]
    rw [readDigits_append _ _ (isDigit_natDecimal _) (by intro c t' h; cases h; rfl)]
    simp [canonNat_natDecimal, digitsVal_natDecimal]
    omega

theorem reprV_head (v : Value) : ∃ c cs, reprV v = c :: cs ∧ c ≠ 101 := by
  cases v with
  | int n =>
    exact ⟨105, intDecimal n ++ [101], by simp [reprV, intToken], by omega⟩
  | bytes b =>
    obtain ⟨a, t, hat, ha1, ha2⟩ := natDecimal_head_digit b.length
    exact ⟨a, t ++ 58 :: b, by simp [reprV, bytesToken, hat], by omega⟩
  | list items =>
    exact ⟨108, reprItems items ++ [101], by simp [reprV], by omega⟩
  | dict ps =>
    exact ⟨100, reprPairs ps ++ [101], by simp [reprV], by omega⟩

mutual

theorem decodeD_reprV (v : Value) (rest : List Nat) (fuel : Nat)
    (hv : validV v = true) (hf : (reprV v).length ≤ fuel) :
    decodeD fuel (reprV v ++ rest) = some (v, rest) := by
  cases v with
  | int n =>
    have hlen : 1 ≤ (reprV (Value.int n)).length := by simp [reprV, intToken]
    obtain ⟨f, rfl⟩ : ∃ f, fuel = f + 1 := ⟨fuel - 1, by omega⟩
    have h1 : reprV (Value.int n) ++ rest = 105 :: (intDecimal n ++ 101 :: rest) := by
      simp [reprV, intToken]
    rw [h1]
    simp only [decodeD, if_true]
    exact decodeInt_intDecimal n rest
  | bytes b =>
    obtain ⟨a, t, hat, ha1, ha2⟩ := natDecimal_head_digit b.length
    have hlen : 1 ≤ (reprV (Value.bytes b)).length := by simp [reprV, bytesToken, hat]
    obtain ⟨f, rfl⟩ : ∃ f, fuel = f + 1 := ⟨fuel - 1, by omega⟩
    have h1 : reprV (Value.bytes b) ++ rest = a :: (t ++ (58 :: (b ++ rest))) := by
      simp [reprV, bytesToken, hat]
    rw [h1]
    simp only [decodeD]
    rw [if_neg (by omega), if_neg (by omega), if_neg (by omega),
      if_pos (show isDigit a = true by simp [isDigit]; omega)]
    rw [show a :: (t ++ (58 :: (b ++ rest))) = bytesToken b ++ rest by
      simp [bytesToken, hat]]
    rw [decodeBytesRaw_bytesToken]
  | list items =>
    have hv' : validItems items = true := by simpa [validV] using hv
    have hlen : (reprItems items).length + 2 ≤ fuel := by
      have : (reprV (Value.list items)).length = (reprItems items).length + 2 := by
        simp [reprV]
      omega
    obtain ⟨f, rfl⟩ : ∃ f, fuel = f + 1 := ⟨fuel - 1, by omega⟩
    have h1 : reprV (Value.list items) ++ rest = 108 :: (reprItems items ++ 101 :: rest) := by
      simp [reprV]
    rw [h1]
    simp only [decodeD, if_true]
    simp only [decodeItemsD_reprItems items rest f hv' (by omega)]
    simp
  | dict ps =>
    have hv' : keysAscendFrom none ps = true ∧ validPairs ps = true := by
      simpa [validV] using hv
    have hlen : (reprPairs ps).length + 2 ≤ fuel := by
      have : (reprV (Value.dict ps)).length = (reprPairs ps).length + 2 := by
        simp [reprV]
      omega
    obtain ⟨f, rfl⟩ : ∃ f, fuel = f + 1 := ⟨fuel - 1, by omega⟩
    have h1 : reprV (Value.dict ps) ++ rest = 100 :: (reprPairs ps ++ 101 :: rest) := by
      simp [reprV]
    rw [h1]
    simp only [decodeD, if_true]
    simp only [decodePairsD_reprPairs ps none rest f hv'.2 hv'.1 (by omega)]
    simp

theorem decodeItemsD_reprItems (items : List Value) (rest : List Nat) (fuel : Nat)
    (hv : validItems items = true) (hf : (reprItems items).length + 1 ≤ fuel) :
    decodeItemsD fuel (reprItems items ++ 101 :: rest) = some (items, rest) := by
  obtain ⟨f, rfl⟩ : ∃ f, fuel = f + 1 := ⟨fuel - 1, by omega⟩
  cases items with
  | nil =>
    have h1 : reprItems ([] : List Value) ++ 101 :: rest = 101 :: rest := by
      simp [reprItems]
    rw [h1]
    simp only [decodeItemsD, if_true]
  | cons v t =>
    obtain ⟨c, cs, hc, hc101⟩ := reprV_head v
    have hv' : validV v = true ∧ validItems t = true := by simpa [validItems] using hv
    have hlenv : (reprV v).length = cs.length + 1 := by rw [hc]; rfl
    have hlen : (reprV v).length + (reprItems t).length + 1 ≤ f + 1 := by
      have : (reprItems (v :: t)).length = (reprV v).length + (reprItems t).length := by
        simp [reprItems]
      omega
    have h1 : reprItems (v :: t) ++ 101 :: rest =
        c :: (cs ++ (reprItems t ++ 101 :: rest)) := by
      simp [reprItems, hc]
    rw [h1]
    simp only [decodeItemsD]
    rw [if_neg hc101]
    rw [show c :: (cs ++ (reprItems t ++ 101 :: rest)) =
      reprV v ++ (reprItems t ++ 101 :: rest) by simp [hc]]
    simp only [decodeD_reprV v (reprItems t ++ 101 :: rest) f hv'.1 (by omega),
      decodeItemsD_reprItems t rest f hv'.2 (by omega)]

theorem decodePairsD_reprPairs (ps : List (List Nat × Value)) (lk : Option (List Nat))
    (rest : List Nat) (fuel : Nat) (hv : validPairs ps = true)
    (hk : keysAscendFrom lk ps = true) (hf : (reprPairs ps).length + 1 ≤ fuel) :
    decodePairsD fuel lk (reprPairs ps ++ 101 :: rest) = some (ps, rest) := by
  obtain ⟨f, rfl⟩ : ∃ f, fuel = f + 1 := ⟨fuel - 1, by omega⟩
  cases ps with
  | nil =>
    have h1 : reprPairs ([] : List (List Nat × Value)) ++ 101 :: rest = 101 :: rest := by
      simp [reprPairs]
    rw [h1]
    simp only [decodePairsD, if_true]
  | cons p t =>
    rcases p with ⟨k, v⟩
    obtain ⟨a, u, hat, ha1, ha2⟩ := natDecimal_head_digit k.length
    have hv' : validV v = true ∧ validPairs t = true := by simpa [validPairs] using hv
    have hkey : keyOk lk k = true ∧ keysAscendFrom (some k) t = true := by
      simpa [keysAscendFrom] using hk
    obtain ⟨c, cs, hc, hc101⟩ := reprV_head v
    have hlenv : (reprV v).length = cs.length + 1 := by rw [hc]; rfl
    have hlenbt : (bytesToken k).length = u.length + 1 + (58 :: k).length := by
      simp [bytesToken, hat]
      omega
    have hlen : (bytesToken k).length + (reprV v).length + (reprPairs t).length + 1 ≤
        f + 1 := by
      have : (reprPairs ((k, v) :: t)).length =
          (bytesToken k).length + (reprV v).length + (reprPairs t).length := by
        simp [reprPairs]
        omega
      omega
    have h1 : reprPairs ((k, v) :: t) ++ 101 :: rest =
        a :: (u ++ (58 :: (k ++ (reprV v ++ (reprPairs t ++ 101 :: rest))))) := by
      simp [reprPairs, bytesToken, hat]
    rw [h1]
    simp only [decodePairsD]
    rw [if_neg (by omega)]
    rw [show a :: (u ++ (58 :: (k ++ (reprV v ++ (reprPairs t ++ 101 :: rest))))) =
      bytesToken k ++ (reprV v ++ (reprPairs t ++ 101 :: rest)) by simp [bytesToken, hat]]
    simp only [decodeBytesRaw_bytesToken, hkey.1, if_true,
      decodeD_reprV v (reprPairs t ++ 101 :: rest) f hv'.1 (by omega),
      decodePairsD_reprPairs t (some k) rest f hv'.2 hkey.2 (by omega)]

end

/-- C1: for every value whose Encodable implementation is correct (modelled:
every dict's keys are strictly ascending, which is exactly what the sorted
builder accepts) and every sufficient depth budget, encoding through a fresh
engine succeeds and produces exactly the wire bytes of the value, and the
standard strict bencode decode parses those bytes back to the same value
while consuming the whole buffer -- so the output is syntactically valid
bencode and `decode (encode v) = v`. -/
theorem claim_C1_roundtrip (v : Value) (d : Nat) (hv : validV v = true)
    (hd : depthV v ≤ d) :
    to_bytes v d = .ok (reprV v) ∧ decode (reprV v) = some v := by
  constructor
  · have henc := encodeV_ok v ⟨[], d, none, 0⟩ rfl (by simpa using hd) hv
    show ((Encoder.emit ⟨[], d, none, 0⟩ (fun e => encodeV v e)).2).get_output = _
    simp only [Encoder.emit, henc]
    simp [Encoder.get_output]
  · have hdec := decodeD_reprV v [] ((reprV v).length + 1) hv (by omega)
    rw [List.append_nil] at hdec
    unfold decode
    rw [hdec]

theorem claim_C1_roundtrip_witness :
    validV (.list [.bytes [115, 112, 97, 109], .int 42]) = true ∧
    depthV (.list [.bytes [115, 112, 97, 109], .int 42]) ≤ 1 ∧
    (to_bytes (.list [.bytes [115, 112, 97, 109], .int 42]) 1 =
        .ok (reprV (.list [.bytes [115, 112, 97, 109], .int 42])) ∧
      decode (reprV (.list [.bytes [115, 112, 97, 109], .int 42])) =
        some (.list [.bytes [115, 112, 97, 109], .int 42])) ∧
    reprV (.list [.bytes [115, 112, 97, 109], .int 42]) =
      [108, 52, 58, 115, 112, 97, 109, 105, 52, 50, 101, 101] :=
  ⟨by decide, by decide,
    claim_C1_roundtrip (.list [.bytes [115, 112, 97, 109], .int 42]) 1
      (by decide) (by decide),
    by decide⟩

end Bendy
